import Mathlib

/-!
Verification of the ATC-LLM-Interface alignment pipeline.

This file gives a shallow embedding of the judgment-pipeline core of the
repository (src/ali/alignment/utils.py, sorting.py, filtering.py, llm.py,
policy.py and src/ali/ali.py) and proves/refutes the specified properties.

Texts are modelled as lists of characters.  Python exceptions are modelled
with an explicit error type and the Except monad.  The external LLM client
is modelled as an oracle function supplying the response text of each call.
-/

deriving instance DecidableEq for Except

namespace ALI

/-- The opening-brace character, written via its code point. -/
def obr : Char := Char.ofNat 123

/-- The closing-brace character, written via its code point. -/
def cbr : Char := Char.ofNat 125

/-- Convert a Lean string literal to the character-list representation. -/
def chars (s : String) : List Char := s.toList

/-- Python exceptions raised by the embedded code. -/
inductive Exn where
  | invalidAnswer    -- utils.InvalidAnswerError
  | sortingFailure   -- sorting.SortingFailureError
  | emptySolutions   -- sorting.get_best_solution: plain Exception on empty list
  | valueError       -- filtering: ValueError on ground-truth mismatch
  | indexError       -- list.pop / list indexing out of range
  | keyError         -- dict.pop on a missing key
  | stopIteration    -- next(iter({})) on an empty dict
  deriving DecidableEq, Repr

/-! ## utils.py: the answer_pattern regex

`answer_pattern` is the verbose regex `(?P<answer>{[^{]+})`.  `re.search`
returns the leftmost match; at a given start position `{`, the greedy
`[^{]+` extends over the maximal run of non-`{` characters and then
backtracks to the last `}` in that run (which must be at offset >= 1 so
that `[^{]+` is non-empty).  The functions below embed exactly that
semantics. -/

/-- Maximal run of non-`{` characters (what `[^{]+` can range over). -/
def nonBraceRun (l : List Char) : List Char := l.takeWhile (fun c => c ≠ obr)

/-- Greedy tail of a match attempt: the prefix of `run` that ends at the
last `}` of `run`, provided that `}` is not the very first character
(the `[^{]+` group must be non-empty). -/
def greedyTail (run : List Char) : Option (List Char) :=
  let r := run.reverse.dropWhile (fun c => c ≠ cbr)
  if 2 ≤ r.length then some r.reverse else none

/-- Match attempt of `answer_pattern` anchored at the start of `l`. -/
def matchAt (l : List Char) : Option (List Char) :=
  match l with
  | [] => none
  | c :: rest =>
    if c = obr then
      match greedyTail (nonBraceRun rest) with
      | some m => some (obr :: m)
      | none => none
    else none

/-- Embedding of re.search(answer_pattern, l): the leftmost (then greedy) match. -/
def reSearch (l : List Char) : Option (List Char) :=
  match l with
  | [] => none
  | _ :: rest =>
    match matchAt l with
    | some m => some m
    | none => reSearch rest

/-! ## A model of `json.loads` on the matched spans

A regex match always starts with `{` and contains no further `{`, so the
JSON value, if any, is a flat object.  We model `json.loads` for flat
objects whose member values are strings (with the single-character escape
sequences), integers, booleans or null; the whole input must be consumed
apart from trailing whitespace, matching the "Extra data" behaviour of
`json.loads`. -/

/-- JSON values produced by the model of `json.loads`. -/
inductive Json where
  | str (s : List Char)
  | num (n : Int)
  | bool (b : Bool)
  | null
  | obj (fields : List (List Char × Json))

/-- JSON insignificant whitespace. -/
def isJsonWs (c : Char) : Bool := c = ' ' || c = '\t' || c = '\n' || c = '\r'

/-- Skip insignificant whitespace. -/
def skipWs (l : List Char) : List Char := l.dropWhile isJsonWs

/-- The two-character escape sequences of JSON strings. -/
def unescape (c : Char) : Option Char :=
  if c = '"' then some '"'
  else if c = '\\' then some '\\'
  else if c = '/' then some '/'
  else if c = 'b' then some (Char.ofNat 8)
  else if c = 'f' then some (Char.ofNat 12)
  else if c = 'n' then some '\n'
  else if c = 'r' then some '\r'
  else if c = 't' then some '\t'
  else none

/-- Parse a JSON string body (the opening quote already consumed),
returning the decoded string and the rest of the input. -/
def parseStringBody : List Char → Option (List Char × List Char)
  | [] => none
  | c :: rest =>
    if c = '"' then some ([], rest)
    else if c = '\\' then
      match rest with
      | [] => none
      | e :: rest2 =>
        match unescape e with
        | none => none
        | some ch =>
          match parseStringBody rest2 with
          | none => none
          | some (s, r) => some (ch :: s, r)
    else if c.toNat < 32 then none
    else
      match parseStringBody rest with
      | none => none
      | some (s, r) => some (c :: s, r)

/-- Decimal digits to a natural number. -/
def digitsVal (l : List Char) : Nat :=
  l.foldl (fun acc c => acc * 10 + (c.toNat - 48)) 0

/-- Parse a JSON integer (optional minus sign, then digits). -/
def parseNumber (l : List Char) : Option (Int × List Char) :=
  match l with
  | c :: rest =>
    if c = '-' then
      let ds := rest.takeWhile Char.isDigit
      if ds = [] then none else some (-(digitsVal ds : Int), rest.dropWhile Char.isDigit)
    else
      let ds := l.takeWhile Char.isDigit
      if ds = [] then none else some ((digitsVal ds : Int), l.dropWhile Char.isDigit)
  | [] => none

/-- Parse a scalar JSON value (string, integer, boolean or null). -/
def parseValue (l : List Char) : Option (Json × List Char) :=
  match l with
  | '"' :: rest =>
    match parseStringBody rest with
    | none => none
    | some (s, r) => some (.str s, r)
  | 't' :: 'r' :: 'u' :: 'e' :: rest => some (.bool true, rest)
  | 'f' :: 'a' :: 'l' :: 's' :: 'e' :: rest => some (.bool false, rest)
  | 'n' :: 'u' :: 'l' :: 'l' :: rest => some (.null, rest)
  | _ =>
    match parseNumber l with
    | none => none
    | some (n, r) => some (.num n, r)

/-- Parse one `"key": value` member. -/
def parseMember (l : List Char) : Option ((List Char × Json) × List Char) :=
  match skipWs l with
  | '"' :: rest =>
    match parseStringBody rest with
    | none => none
    | some (k, r1) =>
      match skipWs r1 with
      | ':' :: r2 =>
        match parseValue (skipWs r2) with
        | none => none
        | some (v, r3) => some ((k, v), r3)
      | _ => none
  | _ => none

/-- Parse `, member`-repetitions until the closing brace.  The fuel bounds
the number of members; the top-level caller supplies more fuel than the
input length, so fuel never runs out on reachable inputs. -/
def parseMembersTail : Nat → List Char → Option (List (List Char × Json) × List Char)
  | 0, _ => none
  | fuel + 1, l =>
    match skipWs l with
    | [] => none
    | c :: rest =>
      if c = cbr then some ([], rest)
      else if c = ',' then
        match parseMember rest with
        | none => none
        | some (m, r) =>
          match parseMembersTail fuel r with
          | none => none
          | some (ms, r2) => some (m :: ms, r2)
      else none

/-- Parse an object body (the opening brace already consumed). -/
def parseObj (fuel : Nat) (l : List Char) : Option (List (List Char × Json) × List Char) :=
  match skipWs l with
  | [] => none
  | c :: rest =>
    if c = cbr then some ([], rest)
    else
      match parseMember l with
      | none => none
      | some (m, r) =>
        match parseMembersTail fuel r with
        | none => none
        | some (ms, r2) => some (m :: ms, r2)

/-- Model of `json.loads` restricted to flat objects: parses the object and
requires the rest of the input to be whitespace only. -/
def jsonLoads (l : List Char) : Option Json :=
  match skipWs l with
  | [] => none
  | c :: rest =>
    if c = obr then
      match parseObj (l.length + 1) rest with
      | none => none
      | some (fields, r) => if skipWs r = [] then some (.obj fields) else none
    else none

/-- Python dict.get on the parsed object: the last binding of a key wins,
as for duplicate keys in `json.loads`. -/
def objGet (fields : List (List Char × Json)) (k : List Char) : Option Json :=
  fields.foldl (fun acc kv => if kv.1 = k then some kv.2 else acc) none

/-- Python `str()` of a decoded JSON value (the cases exercised by
`answer_parser`: the "Answer" value). -/
def pyStr : Json → List Char
  | .str s => s
  | .num n => chars (toString n)
  | .bool true => chars "True"
  | .bool false => chars "False"
  | .null => chars "None"
  | .obj _ => chars "dict"

/-- Python `str.lower()` (ASCII case folding suffices here). -/
def pyLower (l : List Char) : List Char := l.map Char.toLower

/-- Python whitespace for `str.strip()`. -/
def isPySpace (c : Char) : Bool :=
  c = ' ' || c = '\t' || c = '\n' || c = '\r' || c = Char.ofNat 11 || c = Char.ofNat 12

/-- Python `str.strip()`. -/
def pyStrip (l : List Char) : List Char :=
  ((l.dropWhile isPySpace).reverse.dropWhile isPySpace).reverse

/-- utils.answer_parser: search the text (newlines removed) with
`answer_pattern`, parse the span as JSON, read key "Answer", lowercase and
strip it, and check membership in the valid answers; the returned
explanation is always empty.  Any failure raises InvalidAnswerError. -/
def answerParser (text : List Char) (validAnswers : List (List Char)) :
    Except Exn (List Char × List Char) :=
  match reSearch (text.filter (fun c => c ≠ '\n')) with
  | none => .error .invalidAnswer
  | some span =>
    match jsonLoads span with
    | none => .error .invalidAnswer
    | some (.obj fields) =>
      match objGet fields (chars "Answer") with
      | none => .error .invalidAnswer
      | some .null => .error .invalidAnswer
      | some v =>
        let cleanAnswer := pyStrip (pyLower (pyStr v))
        if cleanAnswer ∈ validAnswers then .ok (cleanAnswer, [])
        else .error .invalidAnswer
    | some _ => .error .invalidAnswer

/-- filtering.VALID_FILTERING_ANSWERS. -/
def VALID_FILTERING_ANSWERS : List (List Char) := [chars "yes", chars "no"]

/-- sorting.VALID_SORTING_ANSWERS. -/
def VALID_SORTING_ANSWERS : List (List Char) := [chars "solution 1", chars "solution 2"]

/-! ## sorting.py: get_best_solution

The LLM is modelled as an oracle giving the response text of the k-th chat
call; the prompt built from the two compared solutions is abstracted into
the oracle's arguments.  `llm.chat` never raises (it degrades to empty
text), so the oracle is a total function.  The loop of `get_best_solution`
is embedded with a fuel parameter; `get_best_solution` supplies more fuel
than the loop can consume, since each iteration either shortens the list or
increments the global failure counter (which is bounded by MAX_RETRIES
before SortingFailureError fires).  Results are paired with the number of
chat calls made, to state the call-count properties. -/

/-- sorting.MAX_RETRIES. -/
def MAX_RETRIES : Nat := 3

/-- The `while len(solutions) > 1` loop of get_best_solution.
Arguments: fuel, chat calls made so far, failed_attempts, solutions. -/
def sortLoop (oracle : Nat → α → α → List Char) :
    Nat → Nat → Nat → List α → Except Exn (α × Nat)
  | 0, _, _, _ => .error .sortingFailure
  | _ + 1, _, _, [] => .error .indexError -- solutions[-1] on an empty list
  | _ + 1, calls, _, [s] => .ok (s, calls)
  | fuel + 1, calls, failed, s1 :: s2 :: rest =>
    let sLast := (s2 :: rest).getLast (by simp)
    let response := oracle calls s1 sLast
    match answerParser response VALID_SORTING_ANSWERS with
    | .error _ =>
      if MAX_RETRIES < failed + 1 then .error .sortingFailure
      else sortLoop oracle fuel (calls + 1) (failed + 1) (s1 :: s2 :: rest)
    | .ok (preference, _) =>
      let solutions2 :=
        if preference = chars "solution 1" then (s1 :: s2 :: rest).dropLast
        else s2 :: rest
      sortLoop oracle fuel (calls + 1) failed solutions2

/-- sorting.get_best_solution.  Returns the chosen solution together with
the number of chat calls made. -/
def get_best_solution (oracle : Nat → α → α → List Char) (solutions : List α) :
    Except Exn (α × Nat) :=
  match solutions with
  | [] => .error .emptySolutions
  | [s] => .ok (s, 0)
  | s1 :: s2 :: rest =>
    sortLoop oracle ((s1 :: s2 :: rest).length + MAX_RETRIES + 1) 0 0 (s1 :: s2 :: rest)

/-! ## filtering.py: filter_solutions -/

/-- The per-solution loop of filter_solutions: one chat call per solution,
the answer parsed against {"yes","no"}; "yes" drops the solution, "no"
keeps it; a parse failure propagates.  Returns the kept solutions and the
keep mask. -/
def filterLoop (oracle : Nat → α → List Char) :
    Nat → List α → Except Exn (List α × List Bool)
  | _, [] => .ok ([], [])
  | i, s :: rest =>
    match answerParser (oracle i s) VALID_FILTERING_ANSWERS with
    | .error e => .error e
    | .ok (violation, _) =>
      if violation = chars "yes" then
        match filterLoop oracle (i + 1) rest with
        | .error e => .error e
        | .ok (vs, mask) => .ok (vs, false :: mask)
      else if violation = chars "no" then
        match filterLoop oracle (i + 1) rest with
        | .error e => .error e
        | .ok (vs, mask) => .ok (s :: vs, true :: mask)
      else .error .invalidAnswer

/-- Embedding of the check all(keep_mask[i] == ground_truth[i] for i in range(len(solutions))):
short-circuits on the first mismatch, raises IndexError when the ground
truth is shorter than the mask. -/
def gtAll : List Bool → List Bool → Except Exn Bool
  | [], _ => .ok true
  | _ :: _, [] => .error .indexError
  | k :: ks, g :: gs => if k = g then gtAll ks gs else .ok false

/-- filtering.filter_solutions.  A non-empty ground truth turns on the
test-only consistency check (Python: `if ground_truth:`). -/
def filter_solutions (oracle : Nat → α → List Char) (solutions : List α)
    (groundTruth : Option (List Bool)) : Except Exn (List α) :=
  match filterLoop oracle 0 solutions with
  | .error e => .error e
  | .ok (valid, mask) =>
    match groundTruth with
    | none => .ok valid
    | some gt =>
      if gt = [] then .ok valid
      else
        match gtAll mask gt with
        | .error e => .error e
        | .ok true => .ok valid
        | .ok false => .error .valueError

/-! ## llm.py: chat

The remote client is modelled as a function from the attempt index to
either a response text or a transport/response-shape failure (the caught
exceptions: ollama.ResponseError, pydantic.ValidationError, TypeError,
ValueError).  `chat` returns the response dict's "sequences" list, the
number of client calls made, and the list of sleep durations (seconds). -/

/-- llm.N_RETRIES. -/
def N_RETRIES : Nat := 5

/-- The `for attempt in range(N_RETRIES)` loop of llm.chat. -/
def chatLoop (client : Nat → Except Unit (List Char)) :
    Nat → Nat → List ℚ → List (List Char) × Nat × List ℚ
  | 0, calls, sleeps => ([[]], calls, sleeps)
  | n + 1, calls, sleeps =>
    let attempt := N_RETRIES - (n + 1)
    match client attempt with
    | .ok content => ([content], calls + 1, sleeps)
    | .error _ =>
      chatLoop client n (calls + 1) (sleeps ++ [min ((1 : ℚ) / 10 + attempt) 5])

/-- llm.chat. -/
def chat (client : Nat → Except Unit (List Char)) : List (List Char) × Nat × List ℚ :=
  chatLoop client N_RETRIES 0 []

/-! ## policy.py: ATCPolicy.parse_json

The JSON file is modelled by its decoded contents: a list of
(key, list of rule entries), every rule entry a decoded dict given as a
(key, value) list.  `next(iter(v.keys()))` on an empty dict raises
StopIteration. -/

/-- policy.Rule. -/
structure Rule where
  id : List Char
  value : List Char
  deriving DecidableEq, Repr

/-- policy.ATCPolicy: the two rule lists. -/
structure ATCPolicy where
  filtering_rules : List Rule
  sorting_rules : List Rule
  deriving DecidableEq, Repr

/-- Embedding of Rule(next(iter(v.keys())), next(iter(v.values()))). -/
def ruleOfEntry (v : List (List Char × List Char)) : Except Exn Rule :=
  match v with
  | [] => .error .stopIteration
  | (k, val) :: _ => .ok ⟨k, val⟩

/-- The `for v in value` entry loop. -/
def rulesOfEntries : List (List (List Char × List Char)) → Except Exn (List Rule)
  | [] => .ok []
  | v :: rest =>
    match ruleOfEntry v with
    | .error e => .error e
    | .ok r =>
      match rulesOfEntries rest with
      | .error e => .error e
      | .ok rs => .ok (r :: rs)

/-- The `for key, value in data.items()` loop of ATCPolicy.parse_json:
unrecognized keys are ignored, recognized ones append their rules. -/
def parseJsonLoop :
    List (List Char × List (List (List Char × List Char))) → ATCPolicy →
      Except Exn ATCPolicy
  | [], acc => .ok acc
  | (key, value) :: rest, acc =>
    if key = chars "FILTERING_RULES" then
      match rulesOfEntries value with
      | .error e => .error e
      | .ok rs => parseJsonLoop rest ⟨acc.filtering_rules ++ rs, acc.sorting_rules⟩
    else if key = chars "SORTING_RULES" then
      match rulesOfEntries value with
      | .error e => .error e
      | .ok rs => parseJsonLoop rest ⟨acc.filtering_rules, acc.sorting_rules ++ rs⟩
    else parseJsonLoop rest acc

/-- ATCPolicy.parse_json on a freshly constructed (empty) policy. -/
def parse_json (data : List (List Char × List (List (List Char × List Char)))) :
    Except Exn ATCPolicy :=
  parseJsonLoop data ⟨[], []⟩

/-! ## solver/command.py and solver/resolution.py: the data carried by a
Solution, as needed by ali.clean_conflicts_under_resolution.  A command's
time is a timedelta built from an integer number of seconds. -/

/-- The closed set of command kinds. -/
inductive CommandKind where
  | heading
  | altitude
  | speed
  deriving DecidableEq, Repr

/-- solver/command.py: CommandBase and its three subclasses. -/
structure Command where
  kind : CommandKind
  time : Int
  value : Int
  deriving DecidableEq, Repr

/-- solver/resolution.py: Solution. -/
structure Solution where
  callsign : List Char
  commands : List Command
  deriving DecidableEq, Repr

/-! ## ali.py: clean_conflicts_under_resolution

Conflicts are an abstract type with decidable equality (Conflict equality
is by callsign pair).  The dict of solutions is an association list with
unique keys.  `list.pop(idx)` and `dict.pop(key)` are modelled exactly,
including IndexError/KeyError. -/

/-- Python `list.pop(idx)` for a non-negative index: removes the element
at `idx` or raises IndexError. -/
def listPop (l : List α) (idx : Nat) : Except Exn (List α) :=
  if idx < l.length then .ok (l.eraseIdx idx) else .error .indexError

/-- Python `dict.pop(key)`: removes the binding or raises KeyError. -/
def dictPop [DecidableEq C] (d : List (C × V)) (k : C) : Except Exn (List (C × V)) :=
  if d.any (fun kv => kv.1 = k) then .ok (d.eraseP (fun kv => kv.1 = k))
  else .error .keyError

/-- Python `dict[key]`: looks up the binding or raises KeyError. -/
def dictFind [DecidableEq C] (d : List (C × V)) (k : C) : Except Exn V :=
  match d.find? (fun kv => kv.1 = k) with
  | some kv => .ok kv.2
  | none => .error .keyError

/-- Embedding of solution.commands[0].time: IndexError on an empty command list. -/
def firstCommandTime (s : Solution) : Except Exn Int :=
  match s.commands with
  | [] => .error .indexError
  | c :: _ => .ok c.time

/-- The `for idx, rc in enumerate(conflicts_under_reso.copy())` loop:
iterates over the frozen copy while popping from the live list by the
copy's index, and from the solutions dict by key. -/
def cleanLoop [DecidableEq C] (simt : ℚ) (confList : List C) :
    List C → Nat → List C → List (C × Solution) →
      Except Exn (List C × List (C × Solution))
  | [], _, under, sols => .ok (under, sols)
  | rc :: rest, idx, under, sols =>
    if rc ∈ confList then
      match dictFind sols rc with
      | .error e => .error e
      | .ok solution =>
        match firstCommandTime solution with
        | .error e => .error e
        | .ok t =>
          if (t : ℚ) + 20 < simt then
            match listPop under idx with
            | .error e => .error e
            | .ok under2 =>
              match dictPop sols rc with
              | .error e => .error e
              | .ok sols2 => cleanLoop simt confList rest (idx + 1) under2 sols2
          else cleanLoop simt confList rest (idx + 1) under sols
    else
      match listPop under idx with
      | .error e => .error e
      | .ok under2 =>
        match dictPop sols rc with
        | .error e => .error e
        | .ok sols2 => cleanLoop simt confList rest (idx + 1) under2 sols2

/-- ali.clean_conflicts_under_resolution: the live list and dict after the
cleaning pass at simulation time `simt` (seconds), given the latest
detected-conflict list. -/
def clean_conflicts_under_resolution [DecidableEq C] (simt : ℚ)
    (conflictsUnderReso : List C) (conflictsUnderResoSolution : List (C × Solution))
    (confList : List C) : Except Exn (List C × List (C × Solution)) :=
  cleanLoop simt confList conflictsUnderReso 0 conflictsUnderReso
    conflictsUnderResoSolution

/-! ## Auxiliary notions used by the statements -/

/-- Whether an Except value is a success. -/
def exceptOk (r : Except Exn (List Char × List Char)) : Bool :=
  match r with
  | .ok _ => true
  | .error _ => false

/-- Whether a parsed filtering decision keeps the solution ("no" = no rule
violated). -/
def keepDecision (r : Except Exn (List Char × List Char)) : Bool :=
  match r with
  | .ok p => p.1 = chars "no"
  | .error _ => false

/-- The rule built from a well-formed (non-empty) rule entry. -/
def headRule (v : List (List Char × List Char)) : Rule :=
  match v with
  | [] => ⟨[], []⟩
  | (k, val) :: _ => ⟨k, val⟩

/-- The canonical judge answer span `{"Answer": "yes", "Explanation": "e"}`
with explanation text `e`. -/
def ansSpanPre : List Char :=
  '"' :: 'A' :: 'n' :: 's' :: 'w' :: 'e' :: 'r' :: '"' :: ':' :: ' ' ::
  '"' :: 'y' :: 'e' :: 's' :: '"' :: ',' :: ' ' ::
  '"' :: 'E' :: 'x' :: 'p' :: 'l' :: 'a' :: 'n' :: 'a' :: 't' :: 'i' :: 'o' :: 'n' ::
  '"' :: ':' :: ' ' :: ['"']

/-- The answer span as a full character list. -/
def ansSpan (e : List Char) : List Char :=
  obr :: (ansSpanPre ++ e ++ ['"', cbr])

/-- A character that may appear in the explanation text of `ansSpan`
without affecting the regex match or the JSON string parse: not a brace,
not a quote, not a backslash, not a control character. -/
def plainChar (c : Char) : Prop :=
  c ≠ obr ∧ c ≠ '"' ∧ c ≠ '\\' ∧ 32 ≤ c.toNat

instance : DecidablePred plainChar := fun c =>
  inferInstanceAs (Decidable (c ≠ obr ∧ c ≠ '"' ∧ c ≠ '\\' ∧ 32 ≤ c.toNat))

/-- The text contains a balanced, non-nested `{...}` span. -/
def hasBraceSpan (l : List Char) : Prop :=
  ∃ a mid b, l = a ++ obr :: (mid ++ cbr :: b) ∧ obr ∉ mid

/-! ## A reference-semantics model of the Python lists handled by
get_best_solution (claim C10).

A heap maps references (numbers) to list contents.  `alloc` models the
creation of a fresh list object (a slice); `write` models in-place
mutation of an existing list object and is part of the model but is never
used by the embedding, because the source only rebinds its local variable
to fresh slices, never assigns into a list. -/

/-- A heap of Python list objects. -/
structure Heap (α : Type) where
  data : List (Nat × List α)
  next : Nat

/-- Allocate a fresh list object, returning its reference. -/
def Heap.alloc (h : Heap α) (contents : List α) : Nat × Heap α :=
  (h.next, ⟨h.data ++ [(h.next, contents)], h.next + 1⟩)

/-- Dereference a list object. -/
def Heap.read (h : Heap α) (r : Nat) : Except Exn (List α) :=
  match h.data.find? (fun kv => kv.1 = r) with
  | some kv => .ok kv.2
  | none => .error .keyError

/-- Mutate a list object in place (available in the model; unused by the
embedding of get_best_solution). -/
def Heap.write (h : Heap α) (r : Nat) (contents : List α) : Heap α :=
  ⟨h.data.map (fun kv => if kv.1 = r then (kv.1, contents) else kv), h.next⟩

/-- The loop of get_best_solution in reference semantics: `solRef` is the
local variable `solutions`; each slice allocates a fresh object and
rebinds the local. -/
def sortLoopHeap (oracle : Nat → α → α → List Char) :
    Nat → Nat → Nat → Nat → Heap α → Except Exn (α × Nat) × Heap α
  | 0, _, _, _, h => (.error .sortingFailure, h)
  | fuel + 1, calls, failed, solRef, h =>
    match h.read solRef with
    | .error e => (.error e, h)
    | .ok solutions =>
      match solutions with
      | [] => (.error .indexError, h)
      | [s] => (.ok (s, calls), h)
      | s1 :: s2 :: rest =>
        let sLast := (s2 :: rest).getLast (by simp)
        let response := oracle calls s1 sLast
        match answerParser response VALID_SORTING_ANSWERS with
        | .error _ =>
          if MAX_RETRIES < failed + 1 then (.error .sortingFailure, h)
          else sortLoopHeap oracle fuel (calls + 1) (failed + 1) solRef h
        | .ok (preference, _) =>
          let solutions2 :=
            if preference = chars "solution 1" then (s1 :: s2 :: rest).dropLast
            else s2 :: rest
          let alloc2 := h.alloc solutions2
          sortLoopHeap oracle fuel (calls + 1) failed alloc2.1 alloc2.2

/-- get_best_solution in reference semantics: takes the reference to the
caller's solutions list and returns the result with the final heap. -/
def get_best_solution_heap (oracle : Nat → α → α → List Char) (solRef : Nat)
    (h : Heap α) : Except Exn (α × Nat) × Heap α :=
  match h.read solRef with
  | .error e => (.error e, h)
  | .ok solutions =>
    match solutions with
    | [] => (.error .emptySolutions, h)
    | [_] =>
      match solutions.getLast? with
      | some s => (.ok (s, 0), h)
      | none => (.error .indexError, h)
    | _ => sortLoopHeap oracle (solutions.length + MAX_RETRIES + 1) 0 0 solRef h

/-! # Theorems -/

/-! ## C5: llm.chat retry exhaustion -/

/-- C5: if every attempt to reach the judge fails with a caught
transport/response-shape error, llm.chat makes exactly N_RETRIES = 5 client
calls, sleeps after each failed attempt for min(0.1 + attempt, 5) seconds
(a linearly increasing delay capped at a maximum), and then returns the
response dict `⟨sequences := [""]⟩` instead of raising. -/
theorem c5_chat_exhausts_retries (client : Nat → Except Unit (List Char))
    (h : ∀ a, a < N_RETRIES → client a = .error ()) :
    chat client =
      ([[]], N_RETRIES,
        (List.range N_RETRIES).map (fun a => min ((1 : ℚ) / 10 + a) 5)) := by
  have h0 := h 0 (by norm_num [N_RETRIES])
  have h1 := h 1 (by norm_num [N_RETRIES])
  have h2 := h 2 (by norm_num [N_RETRIES])
  have h3 := h 3 (by norm_num [N_RETRIES])
  have h4 := h 4 (by norm_num [N_RETRIES])
  simp [chat, chatLoop, N_RETRIES, h0, h1, h2, h3, h4, List.range_succ]

/-- Witness for C5: a client that always fails. -/
theorem c5_witness :
    chat (fun _ => .error ()) =
      ([[]], N_RETRIES,
        (List.range N_RETRIES).map (fun a => min ((1 : ℚ) / 10 + a) 5)) :=
  c5_chat_exhausts_retries (fun _ => .error ()) (fun _ _ => rfl)

/-! ## C7: policy loading -/

/-- C7 counterexample: a policy source that lacks both named rule lists
loads successfully with empty rule lists — there is no failure (and no
ConfigurationError type exists in the code), contradicting the claim that
loading fails whenever a named rule list is missing. -/
theorem c7_counterexample : parse_json [] = .ok ⟨[], []⟩ := rfl

/-- Well-formed entries produce the corresponding rules in order. -/
theorem rulesOfEntries_ok (entries : List (List (List Char × List Char)))
    (h : ∀ v ∈ entries, v ≠ []) :
    rulesOfEntries entries = .ok (entries.map headRule) := by
  induction entries with
  | nil => rfl
  | cons v rest ih =>
    have hv := h v (List.mem_cons_self v rest)
    match v, hv with
    | (k, val) :: t, _ =>
      simp [rulesOfEntries, ruleOfEntry, headRule,
        ih (fun w hw => h w (List.mem_cons_of_mem _ hw))]

/-- An empty-dict entry raises StopIteration. -/
theorem rulesOfEntries_malformed (entries : List (List (List Char × List Char)))
    (h : [] ∈ entries) :
    rulesOfEntries entries = .error .stopIteration := by
  induction entries with
  | nil => cases h
  | cons v rest ih =>
    rcases List.mem_cons.mp h with hv | hv
    · cases hv.symm
      rfl
    · cases v with
      | nil => rfl
      | cons p t => simp [rulesOfEntries, ruleOfEntry, ih hv]

/-- The only error rulesOfEntries can raise is StopIteration. -/
theorem rulesOfEntries_error (entries : List (List (List Char × List Char)))
    (e : Exn) (h : rulesOfEntries entries = .error e) : e = .stopIteration := by
  induction entries with
  | nil => simp [rulesOfEntries] at h
  | cons v rest ih =>
    cases v with
    | nil =>
      simp [rulesOfEntries, ruleOfEntry] at h
      exact h.symm
    | cons p t =>
      rcases hre : rulesOfEntries rest with e2 | rs
      · have h2 : e2 = e := by simpa [rulesOfEntries, ruleOfEntry, hre] using h
        subst h2
        exact ih hre
      · simp [rulesOfEntries, ruleOfEntry, hre] at h

/-- C7 amended: loading does not fail on missing rule lists (they default
to empty, see the counterexample); when both named rule lists are present
with well-formed entries, loading succeeds and exposes the rules as
ordered sequences in source order; a malformed (empty-dict) rule entry
under a recognized key makes loading fail, with StopIteration (there is no
dedicated ConfigurationError). -/
theorem c7_amended :
    (∀ fr sr : List (List (List Char × List Char)),
      (∀ v ∈ fr, v ≠ []) → (∀ v ∈ sr, v ≠ []) →
        parse_json [(chars "FILTERING_RULES", fr), (chars "SORTING_RULES", sr)]
          = .ok ⟨fr.map headRule, sr.map headRule⟩)
  ∧ (∀ data, (∃ kv ∈ data,
        (kv.1 = chars "FILTERING_RULES" ∨ kv.1 = chars "SORTING_RULES")
          ∧ [] ∈ kv.2) →
      parse_json data = .error .stopIteration) := by
  constructor
  · intro fr sr hfr hsr
    simp [parse_json, parseJsonLoop, rulesOfEntries_ok fr hfr,
      rulesOfEntries_ok sr hsr, show chars "SORTING_RULES" ≠ chars "FILTERING_RULES" by decide]
  · intro data hex
    suffices hgen : ∀ acc, parseJsonLoop data acc = .error .stopIteration from hgen _
    induction data with
    | nil => simp at hex
    | cons kv rest ih =>
      intro acc
      rcases hex with ⟨kv2, hmem, hkey, hval⟩
      rcases List.mem_cons.mp hmem with hv | hv
      · subst hv
        rcases hkey with hk | hk
        · simp [parseJsonLoop, hk, rulesOfEntries_malformed _ hval]
        · by_cases hfk : kv2.1 = chars "FILTERING_RULES"
          · simp [parseJsonLoop, hfk, rulesOfEntries_malformed _ hval]
          · simp [parseJsonLoop, hk, hfk, rulesOfEntries_malformed _ hval]
      · have ihx := ih ⟨kv2, hv, hkey, hval⟩
        cases kv with
        | mk key value =>
          by_cases hfk : key = chars "FILTERING_RULES"
          · rcases hre : rulesOfEntries value with e | rs
            · have he := rulesOfEntries_error value e hre
              subst he
              simp [parseJsonLoop, hfk, hre]
            · simp [parseJsonLoop, hfk, hre, ihx]
          · by_cases hsk : key = chars "SORTING_RULES"
            · rcases hre : rulesOfEntries value with e | rs
              · have he := rulesOfEntries_error value e hre
                subst he
                simp [parseJsonLoop, hfk, hsk, hre]
              · simp [parseJsonLoop, hfk, hsk, hre, ihx]
            · simp [parseJsonLoop, hfk, hsk, ihx]

/-- Witness for C7 amended: a concrete two-list policy source. -/
theorem c7_witness :
    parse_json
        [(chars "FILTERING_RULES",
            [[(chars "1", chars "no climbing")], [(chars "2", chars "no speed up")]]),
          (chars "SORTING_RULES", [[(chars "3", chars "prefer heading")]])]
      = .ok ⟨[⟨chars "1", chars "no climbing"⟩, ⟨chars "2", chars "no speed up"⟩],
          [⟨chars "3", chars "prefer heading"⟩]⟩ :=
  (c7_amended.1
        [[(chars "1", chars "no climbing")], [(chars "2", chars "no speed up")]]
        [[(chars "3", chars "prefer heading")]]
        (by decide) (by decide)).trans (by decide)

/-! ## C8: the per-cycle cleaning of conflicts under resolution -/

/-- A one-command solution whose first command executes at time `t`. -/
def solAt (t : Int) : Solution := ⟨chars "AC1", [⟨.heading, t, 45⟩]⟩

/-- C8: the claim correctly describes the intent (per-record removal when
resolved or stale, as the docstring of clean_conflicts_under_resolution
says and as the single-record spec scenarios confirm), but the code pops
the live list by indices of the frozen copy while the live list shrinks,
so a pass with several removable records removes the wrong records.

First conjunct — failing input: records 0, 1, 2 tracked; 0 and 1 resolved
(absent from the detected-conflict list), 2 still active and not stale at
time 50.  The claim requires the pass to keep exactly [2]; the code
returns [1] (it removed records 0 and 2 from the list) while the solution
dict keeps only record 2's entry.  Second conjunct: with both of two
tracked records removable, the pass raises IndexError.  Remaining
conjuncts: the spec's single-record scenarios do hold (evicted at time 125
since 125 > 100 + 20, retained at 115). -/
theorem c8_cleaning_pass :
    clean_conflicts_under_resolution (C := Nat) 50 [0, 1, 2]
        [(0, solAt 100), (1, solAt 100), (2, solAt 100)] [2]
      = .ok ([1], [(2, solAt 100)])
  ∧ clean_conflicts_under_resolution (C := Nat) 125 [0, 1]
        [(0, solAt 100), (1, solAt 100)] []
      = .error .indexError
  ∧ clean_conflicts_under_resolution (C := Nat) 125 [0] [(0, solAt 100)] [0]
      = .ok ([], [])
  ∧ clean_conflicts_under_resolution (C := Nat) 115 [0] [(0, solAt 100)] [0]
      = .ok ([0], [(0, solAt 100)]) := by
  refine ⟨?_, ?_, ?_, ?_⟩ <;>
    norm_num [clean_conflicts_under_resolution, cleanLoop, dictFind, dictPop,
      listPop, firstCommandTime, solAt, List.eraseIdx, List.eraseP, List.find?,
      List.any, cond]

/-! ## C2, C3, C6: the sorting tournament -/

/-- Main lemma for C3: if every judge answer parses, the elimination loop
returns a solution after exactly one chat call per eliminated element. -/
theorem sortLoop_all_ok {α : Type} (oracle : Nat → α → α → List Char)
    (hok : ∀ k (a b : α), ∃ p,
      answerParser (oracle k a b) VALID_SORTING_ANSWERS = .ok p) :
    ∀ fuel calls failed (sols : List α), sols ≠ [] → sols.length ≤ fuel →
      ∃ s, sortLoop oracle fuel calls failed sols
        = .ok (s, calls + (sols.length - 1)) := by
  intro fuel
  induction fuel with
  | zero =>
    intro calls failed sols hne hlen
    exact absurd (List.length_eq_zero.mp (Nat.le_zero.mp hlen)) hne
  | succ fuel ih =>
    intro calls failed sols hne hlen
    match sols with
    | [s] => exact ⟨s, by simp [sortLoop]⟩
    | s1 :: s2 :: rest =>
      obtain ⟨p, hp⟩ := hok calls s1 ((s2 :: rest).getLast (by simp))
      by_cases hp1 : p.1 = chars "solution 1"
      · have hlen2 : ((s1 :: s2 :: rest).dropLast).length ≤ fuel := by
          simp at hlen ⊢
          omega
        obtain ⟨s, hs⟩ := ih (calls + 1) failed ((s1 :: s2 :: rest).dropLast)
          (by simp) hlen2
        refine ⟨s, ?_⟩
        rw [show sortLoop oracle (fuel + 1) calls failed (s1 :: s2 :: rest)
            = sortLoop oracle fuel (calls + 1) failed ((s1 :: s2 :: rest).dropLast) by
          simp [sortLoop, hp, hp1]]
        rw [hs]
        simp
        omega
      · have hlen2 : (s2 :: rest).length ≤ fuel := by
          simp at hlen ⊢
          omega
        obtain ⟨s, hs⟩ := ih (calls + 1) failed (s2 :: rest) (by simp) hlen2
        refine ⟨s, ?_⟩
        rw [show sortLoop oracle (fuel + 1) calls failed (s1 :: s2 :: rest)
            = sortLoop oracle fuel (calls + 1) failed (s2 :: rest) by
          simp [sortLoop, hp, hp1]]
        rw [hs]
        simp
        omega

/-- C2: each round of the elimination loop compares exactly the current
first and last elements; a "solution 1" decision drops the last element
(keeping the order-preserving dropLast), any other decision drops the
first element (keeping the tail); and for two solutions with a judge that
always answers "solution 1", get_best_solution returns the first-supplied
solution (after one comparison). -/
theorem c2_tournament_first_last {α : Type} :
    (∀ (oracle : Nat → α → α → List Char) fuel calls failed (s1 s2 : α) rest p,
      answerParser (oracle calls s1 ((s2 :: rest).getLast (by simp)))
          VALID_SORTING_ANSWERS = .ok p →
      sortLoop oracle (fuel + 1) calls failed (s1 :: s2 :: rest)
        = sortLoop oracle fuel (calls + 1) failed
            (if p.1 = chars "solution 1" then (s1 :: s2 :: rest).dropLast
             else s2 :: rest))
  ∧ (∀ (oracle : Nat → α → α → List Char) (s1 s2 : α),
      (∀ k (a b : α), ∃ expl,
        answerParser (oracle k a b) VALID_SORTING_ANSWERS
          = .ok (chars "solution 1", expl)) →
      get_best_solution oracle [s1, s2] = .ok (s1, 1)) := by
  constructor
  · intro oracle fuel calls failed s1 s2 rest p hp
    by_cases hp1 : p.1 = chars "solution 1" <;> simp [sortLoop, hp, hp1]
  · intro oracle s1 s2 h
    obtain ⟨e0, h0⟩ := h 0 s1 s2
    simp [get_best_solution, sortLoop, h0]

/-- C3: with every judge answer parseable, get_best_solution on n ≥ 1
solutions returns a solution after exactly n − 1 chat calls; a singleton
returns its sole element with zero chat calls; the empty list fails fast
with an exception, for every oracle (hence before any judge call). -/
theorem c3_call_counts {α : Type} :
    (∀ (oracle : Nat → α → α → List Char) (sols : List α), sols ≠ [] →
      (∀ k (a b : α), ∃ p,
        answerParser (oracle k a b) VALID_SORTING_ANSWERS = .ok p) →
      ∃ s, get_best_solution oracle sols = .ok (s, sols.length - 1))
  ∧ (∀ (oracle : Nat → α → α → List Char) (s : α),
      get_best_solution oracle [s] = .ok (s, 0))
  ∧ (∀ oracle : Nat → α → α → List Char,
      get_best_solution oracle ([] : List α) = .error .emptySolutions) := by
  refine ⟨?_, fun oracle s => rfl, fun oracle => rfl⟩
  intro oracle sols hne hok
  match sols with
  | [s] => exact ⟨s, rfl⟩
  | s1 :: s2 :: rest =>
    have h := sortLoop_all_ok oracle hok
      ((s1 :: s2 :: rest).length + MAX_RETRIES + 1) 0 0 (s1 :: s2 :: rest)
      (by simp) (by omega)
    simpa [get_best_solution] using h

/-- Witness for C2: a judge that always prefers solution 1. -/
theorem c2_witness :
    (sortLoop (fun _ (_ _ : Nat) => chars "\x7b\"Answer\": \"Solution 1\"\x7d")
        (5 + 1) 0 0 [4, 8, 15]
      = sortLoop (fun _ (_ _ : Nat) => chars "\x7b\"Answer\": \"Solution 1\"\x7d")
          5 1 0 [4, 8])
  ∧ get_best_solution (fun _ (_ _ : Nat) => chars "\x7b\"Answer\": \"Solution 1\"\x7d")
        [4, 8]
      = .ok (4, 1) := by
  constructor
  · exact (c2_tournament_first_last.1
        (fun _ _ _ => chars "\x7b\"Answer\": \"Solution 1\"\x7d")
        5 0 0 4 8 [15] (chars "solution 1", []) (by decide)).trans (by decide)
  · have hx : answerParser (chars "\x7b\"Answer\": \"Solution 1\"\x7d")
        VALID_SORTING_ANSWERS = .ok (chars "solution 1", []) := by decide
    exact c2_tournament_first_last.2
      (fun _ _ _ => chars "\x7b\"Answer\": \"Solution 1\"\x7d") 4 8
      (fun k a b => ⟨[], hx⟩)

/-- Witness for C3: three solutions, all answers parseable, two chat calls. -/
theorem c3_witness :
    (∃ s, get_best_solution
        (fun _ (_ _ : Nat) => chars "\x7b\"Answer\": \"Solution 2\"\x7d") [4, 8, 15]
      = .ok (s, 2)) := by
  have hx : answerParser (chars "\x7b\"Answer\": \"Solution 2\"\x7d")
      VALID_SORTING_ANSWERS = .ok (chars "solution 2", []) := by decide
  exact c3_call_counts.1
    (fun _ _ _ => chars "\x7b\"Answer\": \"Solution 2\"\x7d") [4, 8, 15]
    (by decide) (fun k a b => ⟨(chars "solution 2", []), hx⟩)

/-- C6 counterexample: the retry budget is not per-comparison.  The oracle
answers: call 0 bad, call 1 bad, call 2 parseable ("Solution 1"), call 3
bad, call 4 bad, every later call parseable.  On three solutions the first
comparison incurs 2 parse failures and is then resolved; the second
comparison incurs only 2 failures before a parseable answer would arrive —
under the claim (3 fresh attempts per comparison) sorting would succeed —
yet the code raises SortingFailureError at the 5th call, because the
failure counter accumulated across comparisons reaches 4 > MAX_RETRIES. -/
theorem c6_counterexample :
    get_best_solution
        (fun k (_ _ : Nat) =>
          if k = 2 ∨ 5 ≤ k then chars "\x7b\"Answer\": \"Solution 1\"\x7d"
          else chars "bad")
        [10, 20, 30]
      = .error .sortingFailure := by decide

/-- C6 amended: a comparison whose answer fails to parse is retried, but
the failure counter is global across the whole get_best_solution call and
is never reset by a successful comparison: a failed parse raises
SortingFailureError exactly when the accumulated failure count exceeds
MAX_RETRIES = 3 (i.e. on the 4th failure overall, wherever the earlier
failures occurred), and otherwise the same comparison is retried with the
counter incremented; a successful parse carries the accumulated counter
unchanged into the next comparison. -/
theorem c6_amended {α : Type} :
    (∀ (oracle : Nat → α → α → List Char) fuel calls failed (s1 s2 : α) rest e,
      answerParser (oracle calls s1 ((s2 :: rest).getLast (by simp)))
          VALID_SORTING_ANSWERS = .error e →
      sortLoop oracle (fuel + 1) calls failed (s1 :: s2 :: rest)
        = if MAX_RETRIES < failed + 1 then .error .sortingFailure
          else sortLoop oracle fuel (calls + 1) (failed + 1) (s1 :: s2 :: rest))
  ∧ (∀ (oracle : Nat → α → α → List Char) fuel calls failed (s1 s2 : α) rest p,
      answerParser (oracle calls s1 ((s2 :: rest).getLast (by simp)))
          VALID_SORTING_ANSWERS = .ok p →
      sortLoop oracle (fuel + 1) calls failed (s1 :: s2 :: rest)
        = sortLoop oracle fuel (calls + 1) failed
            (if p.1 = chars "solution 1" then (s1 :: s2 :: rest).dropLast
             else s2 :: rest)) := by
  constructor
  · intro oracle fuel calls failed s1 s2 rest e he
    by_cases hf : MAX_RETRIES < failed + 1 <;> simp [sortLoop, he, hf]
  · intro oracle fuel calls failed s1 s2 rest p hp
    by_cases hp1 : p.1 = chars "solution 1" <;> simp [sortLoop, hp, hp1]

/-- Witness for C6 amended: with 3 failures already accumulated, a 4th
parse failure raises SortingFailureError; with 2 accumulated, a successful
parse carries the count onward and the comparison completes. -/
theorem c6_witness :
    (sortLoop (fun _ (_ _ : Nat) => chars "bad") (6 + 1) 0 3 [1, 2]
      = .error .sortingFailure)
  ∧ (sortLoop (fun _ (_ _ : Nat) => chars "\x7b\"Answer\": \"Solution 1\"\x7d")
        (6 + 1) 0 2 [1, 2]
      = .ok (1, 1)) := by
  constructor
  · exact (c6_amended.1 (fun _ _ _ => chars "bad") 6 0 3 1 2 [] .invalidAnswer
      (by decide)).trans (by decide)
  · exact (c6_amended.2 (fun _ _ _ => chars "\x7b\"Answer\": \"Solution 1\"\x7d")
      6 0 2 1 2 [] (chars "solution 1", []) (by decide)).trans (by decide)

/-! ## C4, C9: the filtering engine -/

/-- A successful parse returns a token from the accepted set. -/
theorem answerParser_ok_mem (t : List Char) (V : List (List Char))
    (p : List Char × List Char) (h : answerParser t V = .ok p) : p.1 ∈ V := by
  simp only [answerParser] at h
  split at h
  · simp at h
  · split at h
    · simp at h
    · split at h
      · simp at h
      · simp at h
      · split at h
        · rename_i hmem
          injection h with h2
          rw [← h2]
          exact hmem
        · simp at h
    · simp at h

/-- The only error answerParser can raise is InvalidAnswerError. -/
theorem answerParser_error_eq (t : List Char) (V : List (List Char))
    (e : Exn) (h : answerParser t V = .error e) : e = .invalidAnswer := by
  simp only [answerParser] at h
  split at h
  · exact (Except.error.inj h).symm
  · split at h
    · exact (Except.error.inj h).symm
    · split at h
      · exact (Except.error.inj h).symm
      · exact (Except.error.inj h).symm
      · split at h
        · simp at h
        · exact (Except.error.inj h).symm
    · exact (Except.error.inj h).symm

/-- The two accepted filtering tokens are distinct. -/
theorem chars_yes_ne_no : chars "yes" ≠ chars "no" := by decide

/-- The two accepted filtering tokens are distinct (other direction). -/
theorem chars_no_ne_yes : chars "no" ≠ chars "yes" := by decide

/-- The filtering loop under all-parseable answers returns exactly the
elements whose decision keeps them, in order, together with a keep mask. -/
theorem filterLoop_all_ok {α : Type} (oracle : Nat → α → List Char) :
    ∀ (sols : List α) (i : Nat),
      (∀ p ∈ sols.enumFrom i,
        exceptOk (answerParser (oracle p.1 p.2) VALID_FILTERING_ANSWERS) = true) →
      ∃ mask, filterLoop oracle i sols
        = .ok ((((sols.enumFrom i).filter
            (fun p => keepDecision
              (answerParser (oracle p.1 p.2) VALID_FILTERING_ANSWERS))).map
                Prod.snd), mask) := by
  intro sols
  induction sols with
  | nil => exact fun i h => ⟨[], rfl⟩
  | cons s rest ih =>
    intro i h
    have hcons : List.enumFrom i (s :: rest) = (i, s) :: List.enumFrom (i + 1) rest := rfl
    have hhead := h (i, s) (by rw [hcons]; exact List.mem_cons_self _ _)
    rcases hap : answerParser (oracle i s) VALID_FILTERING_ANSWERS with e | p
    · rw [hap] at hhead
      simp [exceptOk] at hhead
    · have hmem := answerParser_ok_mem _ _ _ hap
      obtain ⟨mask, hm⟩ := ih (i + 1)
        (fun q hq => h q (by rw [hcons]; exact List.mem_cons_of_mem _ hq))
      simp only [VALID_FILTERING_ANSWERS, List.mem_cons, List.mem_singleton,
        List.not_mem_nil, or_false] at hmem
      rcases hmem with h1 | h1
      · refine ⟨false :: mask, ?_⟩
        have hcond : keepDecision (Except.ok p) = false := by
          simp [keepDecision, h1, chars_yes_ne_no]
        simp [filterLoop, hap, h1, hm, hcons, List.filter_cons, hcond]
      · refine ⟨true :: mask, ?_⟩
        have hcond : keepDecision (Except.ok p) = true := by
          simp [keepDecision, h1]
        simp [filterLoop, hap, h1, hm, hcons, List.filter_cons, hcond,
          chars_no_ne_yes]

/-- The filtering loop raises InvalidAnswerError exactly when some
solution's decision fails to parse. -/
theorem filterLoop_error_iff {α : Type} (oracle : Nat → α → List Char) :
    ∀ (sols : List α) (i : Nat),
      filterLoop oracle i sols = .error .invalidAnswer
        ↔ ∃ p ∈ sols.enumFrom i,
            exceptOk (answerParser (oracle p.1 p.2) VALID_FILTERING_ANSWERS)
              = false := by
  intro sols
  induction sols with
  | nil => simp [filterLoop, List.enumFrom]
  | cons s rest ih =>
    intro i
    have hcons : List.enumFrom i (s :: rest) = (i, s) :: List.enumFrom (i + 1) rest := rfl
    constructor
    · intro h
      rcases hap : answerParser (oracle i s) VALID_FILTERING_ANSWERS with e | p
      · exact ⟨(i, s), by rw [hcons]; exact List.mem_cons_self _ _, by
          simp [exceptOk, hap]⟩
      · have hmem := answerParser_ok_mem _ _ _ hap
        simp only [VALID_FILTERING_ANSWERS, List.mem_cons, List.mem_singleton,
          List.not_mem_nil, or_false] at hmem
        have htail : filterLoop oracle (i + 1) rest = .error .invalidAnswer := by
          rcases hrest : filterLoop oracle (i + 1) rest with e2 | pr
          · have h2 : e2 = Exn.invalidAnswer := by
              rcases hmem with h1 | h1 <;>
                simpa [filterLoop, hap, h1, hrest, chars_no_ne_yes] using h
            rw [h2]
          · exfalso
            rcases hmem with h1 | h1 <;>
              simp [filterLoop, hap, h1, hrest, chars_no_ne_yes] at h
        obtain ⟨q, hq, hqe⟩ := (ih (i + 1)).mp htail
        exact ⟨q, by rw [hcons]; exact List.mem_cons_of_mem _ hq, hqe⟩
    · intro hex
      obtain ⟨q, hq, hqe⟩ := hex
      rw [hcons] at hq
      rcases List.mem_cons.mp hq with hv | hv
      · subst hv
        rcases hap : answerParser (oracle i s) VALID_FILTERING_ANSWERS with e | p
        · have he := answerParser_error_eq _ _ _ hap
          subst he
          simp [filterLoop, hap]
        · rw [hap] at hqe
          simp [exceptOk] at hqe
      · have htail := (ih (i + 1)).mpr ⟨q, hv, hqe⟩
        rcases hap : answerParser (oracle i s) VALID_FILTERING_ANSWERS with e | p
        · have he := answerParser_error_eq _ _ _ hap
          subst he
          simp [filterLoop, hap]
        · have hmem := answerParser_ok_mem _ _ _ hap
          simp only [VALID_FILTERING_ANSWERS, List.mem_cons, List.mem_singleton,
            List.not_mem_nil, or_false] at hmem
          rcases hmem with h1 | h1 <;>
            simp [filterLoop, hap, h1, htail, chars_no_ne_yes]

/-- C4: with every per-solution judge decision parseable,
filter_solutions returns exactly the subsequence of its input consisting
of the solutions whose parsed decision is "no" (input order preserved, no
elements introduced); and it propagates InvalidAnswerError to the caller
if and only if some solution's decision fails to parse (the loop makes
exactly one judge call per solution and never retries one). -/
theorem c4_filter_exact {α : Type} :
    (∀ (oracle : Nat → α → List Char) (sols : List α),
      (∀ p ∈ sols.enum,
        exceptOk (answerParser (oracle p.1 p.2) VALID_FILTERING_ANSWERS) = true) →
      filter_solutions oracle sols none
        = .ok (((sols.enum).filter
            (fun p => keepDecision
              (answerParser (oracle p.1 p.2) VALID_FILTERING_ANSWERS))).map
                Prod.snd))
  ∧ (∀ (oracle : Nat → α → List Char) (sols : List α),
      filter_solutions oracle sols none = .error .invalidAnswer
        ↔ ∃ p ∈ sols.enum,
            exceptOk (answerParser (oracle p.1 p.2) VALID_FILTERING_ANSWERS)
              = false) := by
  constructor
  · intro oracle sols h
    obtain ⟨mask, hm⟩ := filterLoop_all_ok oracle sols 0
      (by simpa [List.enum] using h)
    simp [filter_solutions, hm, List.enum]
  · intro oracle sols
    have key : filter_solutions oracle sols none = .error .invalidAnswer
        ↔ filterLoop oracle 0 sols = .error .invalidAnswer := by
      rcases hfl : filterLoop oracle 0 sols with e | pr
      · simp [filter_solutions, hfl]
      · simp [filter_solutions, hfl]
    rw [key]
    simpa [List.enum] using filterLoop_error_iff oracle sols 0

/-- Witness for C4: decisions no/yes/no keep exactly the first and third
solutions; an unparseable decision propagates InvalidAnswerError. -/
theorem c4_witness :
    (filter_solutions
        (fun i (_ : Nat) =>
          if i = 1 then chars "\x7b\"Answer\": \"yes\"\x7d"
          else chars "\x7b\"Answer\": \"no\"\x7d")
        [5, 6, 7] none
      = .ok [5, 7])
  ∧ filter_solutions (fun _ (_ : Nat) => chars "bad") [5] none
      = .error .invalidAnswer := by
  constructor
  · exact (c4_filter_exact.1
      (fun i _ =>
        if i = 1 then chars "\x7b\"Answer\": \"yes\"\x7d"
        else chars "\x7b\"Answer\": \"no\"\x7d")
      [5, 6, 7] (by decide)).trans (by decide)
  · exact (c4_filter_exact.2 (fun _ _ => chars "bad") [5]).mpr
      ⟨(0, 5), by decide, by decide⟩

/-- Every solution kept by the filtering loop (with a judge that is a
deterministic function of the solution) had decision "no". -/
theorem filterLoop_kept_sound {α : Type} (g : α → List Char) :
    ∀ (sols : List α) (i : Nat) (valid : List α) (mask : List Bool),
      filterLoop (fun _ s => g s) i sols = .ok (valid, mask) →
      ∀ s ∈ valid,
        keepDecision (answerParser (g s) VALID_FILTERING_ANSWERS) = true := by
  intro sols
  induction sols with
  | nil =>
    intro i valid mask h s hs
    simp [filterLoop] at h
    rw [h.1] at hs
    cases hs
  | cons a rest ih =>
    intro i valid mask h s hs
    rcases hap : answerParser (g a) VALID_FILTERING_ANSWERS with e | p
    · simp [filterLoop, hap] at h
    · have hmem := answerParser_ok_mem _ _ _ hap
      simp only [VALID_FILTERING_ANSWERS, List.mem_cons, List.mem_singleton,
        List.not_mem_nil, or_false] at hmem
      rcases hrest : filterLoop (fun _ s => g s) (i + 1) rest with e2 | pr
      · rcases hmem with h1 | h1 <;>
          simp [filterLoop, hap, h1, hrest, chars_no_ne_yes] at h
      · rcases hmem with h1 | h1
        · simp [filterLoop, hap, h1, hrest] at h
          rw [← h.1] at hs
          exact ih (i + 1) pr.1 pr.2 hrest s hs
        · simp [filterLoop, hap, h1, hrest, chars_no_ne_yes] at h
          rw [← h.1] at hs
          rcases List.mem_cons.mp hs with hv | hv
          · subst hv
            simp [keepDecision, hap, h1]
          · exact ih (i + 1) pr.1 pr.2 hrest s hv

/-- A list all of whose elements have decision "no" passes the filtering
loop unchanged. -/
theorem filterLoop_all_kept {α : Type} (g : α → List Char) :
    ∀ (l : List α) (i : Nat),
      (∀ s ∈ l, keepDecision (answerParser (g s) VALID_FILTERING_ANSWERS) = true) →
      filterLoop (fun _ s => g s) i l = .ok (l, List.replicate l.length true) := by
  intro l
  induction l with
  | nil => intro i h; rfl
  | cons a rest ih =>
    intro i h
    have ha := h a (List.mem_cons_self a rest)
    rcases hap : answerParser (g a) VALID_FILTERING_ANSWERS with e | p
    · rw [hap] at ha
      simp [keepDecision] at ha
    · have hp1 : p.1 = chars "no" := by
        rw [hap] at ha
        simpa [keepDecision] using ha
      simp [filterLoop, hap, hp1, chars_no_ne_yes, List.replicate_succ,
        ih (i + 1) (fun s hs => h s (List.mem_cons_of_mem _ hs))]

/-- C9: filtering is idempotent when the judge is a deterministic function
of the per-solution request: if filter_solutions succeeds with result l,
filtering l again succeeds and returns l itself. -/
theorem c9_filter_idempotent {α : Type} (g : α → List Char) (sols l : List α)
    (h : filter_solutions (fun _ s => g s) sols none = .ok l) :
    filter_solutions (fun _ s => g s) l none = .ok l := by
  rcases hfl : filterLoop (fun _ s => g s) 0 sols with e | pr
  · simp [filter_solutions, hfl] at h
  · have hv : pr.1 = l := by simpa [filter_solutions, hfl] using h
    have hsound := filterLoop_kept_sound g sols 0 pr.1 pr.2 hfl
    rw [hv] at hsound
    have h2 := filterLoop_all_kept g l 0 hsound
    simp [filter_solutions, h2]

/-- Witness for C9: a mixed judge drops 6 from [5, 6, 7]; filtering the
result [5, 7] again returns [5, 7]. -/
theorem c9_witness :
    filter_solutions
        (fun _ (s : Nat) =>
          if s = 6 then chars "\x7b\"Answer\": \"yes\"\x7d"
          else chars "\x7b\"Answer\": \"no\"\x7d")
        [5, 7] none
      = .ok [5, 7] :=
  c9_filter_idempotent
    (fun s =>
      if s = 6 then chars "\x7b\"Answer\": \"yes\"\x7d"
      else chars "\x7b\"Answer\": \"no\"\x7d")
    [5, 6, 7] [5, 7] (by decide)

/-! ## C10: get_best_solution never mutates the caller's list -/

/-- Allocating a fresh list object leaves every existing object readable
with unchanged contents. -/
theorem Heap.read_alloc {α : Type} (h : Heap α) (c : List α) (r : Nat)
    (v : List α) (hr : h.read r = .ok v) : (h.alloc c).2.read r = .ok v := by
  unfold Heap.read at hr ⊢
  rcases hf : h.data.find? (fun kv => kv.1 = r) with _ | kv
  · rw [hf] at hr
    cases hr
  · rw [hf] at hr
    have hfind : ((h.alloc c).2.data).find? (fun kv => kv.1 = r) = some kv := by
      show ((h.data ++ [(h.next, c)]).find? (fun kv => kv.1 = r)) = some kv
      rw [List.find?_append, hf]
      rfl
    rw [hfind]
    exact hr

/-- The elimination loop in reference semantics only allocates fresh
slices: every list object present before the call still reads with its
original contents afterwards. -/
theorem sortLoopHeap_preserves {α : Type} (oracle : Nat → α → α → List Char) :
    ∀ fuel calls failed solRef (h : Heap α) (r : Nat) (v : List α),
      h.read r = .ok v →
      (sortLoopHeap oracle fuel calls failed solRef h).2.read r = .ok v := by
  intro fuel
  induction fuel with
  | zero =>
    intro calls failed solRef h r v hr
    simpa [sortLoopHeap] using hr
  | succ fuel ih =>
    intro calls failed solRef h r v hr
    rcases hread : h.read solRef with e | sols
    · simpa [sortLoopHeap, hread] using hr
    · match sols with
      | [] => simpa [sortLoopHeap, hread] using hr
      | [s] => simpa [sortLoopHeap, hread] using hr
      | s1 :: s2 :: rest =>
        rcases hap : answerParser (oracle calls s1 ((s2 :: rest).getLast (by simp)))
            VALID_SORTING_ANSWERS with e | p
        · by_cases hf : MAX_RETRIES < failed + 1
          · simpa [sortLoopHeap, hread, hap, hf] using hr
          · simpa [sortLoopHeap, hread, hap, hf] using
              ih (calls + 1) (failed + 1) solRef h r v hr
        · simpa [sortLoopHeap, hread, hap] using
            ih (calls + 1) failed _ _ r v (Heap.read_alloc h _ r v hr)

/-- C10: get_best_solution never mutates its input.  In the
reference-semantics embedding, every list object of the heap — in
particular the caller's solutions list, whose elements are immutable
values here — still reads with its original contents after the call: the
loop only allocates fresh slices (dropLast/tail) and rebinds its local
variable, and never writes into an existing object. -/
theorem c10_no_mutation {α : Type} (oracle : Nat → α → α → List Char)
    (solRef : Nat) (h : Heap α) (r : Nat) (v : List α)
    (hr : h.read r = .ok v) :
    (get_best_solution_heap oracle solRef h).2.read r = .ok v := by
  rcases hread : h.read solRef with e | sols
  · simpa [get_best_solution_heap, hread] using hr
  · match sols with
    | [] => simpa [get_best_solution_heap, hread] using hr
    | [s] => simpa [get_best_solution_heap, hread] using hr
    | s1 :: s2 :: rest =>
      simpa [get_best_solution_heap, hread] using
        sortLoopHeap_preserves oracle _ 0 0 solRef h r v hr

/-- Witness for C10: after a full run on the caller's list (reference 0),
reference 0 still holds its original contents. -/
theorem c10_witness :
    ((get_best_solution_heap
        (fun _ (_ _ : Nat) => chars "\x7b\"Answer\": \"Solution 1\"\x7d")
        0 ⟨[(0, [7, 8])], 1⟩).2).read 0
      = .ok [7, 8] :=
  c10_no_mutation
    (fun _ _ _ => chars "\x7b\"Answer\": \"Solution 1\"\x7d")
    0 ⟨[(0, [7, 8])], 1⟩ 0 [7, 8] (by decide)

/-! ## C1: the answer parser -/

/-- takeWhile runs through a block whose members all satisfy the
predicate. -/
theorem takeWhile_append_all (p : Char → Bool) (a b : List Char)
    (h : ∀ c ∈ a, p c = true) :
    (a ++ b).takeWhile p = a ++ b.takeWhile p := by
  induction a with
  | nil => rfl
  | cons c t ih =>
    have hc := h c (List.mem_cons_self c t)
    simp only [List.cons_append, List.takeWhile_cons_of_pos hc]
    rw [ih (fun x hx => h x (List.mem_cons_of_mem _ hx))]

/-- dropWhile runs through a block whose members all satisfy the
predicate. -/
theorem dropWhile_append_all (p : Char → Bool) (a b : List Char)
    (h : ∀ c ∈ a, p c = true) :
    (a ++ b).dropWhile p = b.dropWhile p := by
  induction a with
  | nil => rfl
  | cons c t ih =>
    have hc := h c (List.mem_cons_self c t)
    simp only [List.cons_append, List.dropWhile_cons_of_pos hc]
    exact ih (fun x hx => h x (List.mem_cons_of_mem _ hx))

/-- The head of a dropWhile result falsifies the predicate. -/
theorem dropWhile_head_false (p : Char → Bool) :
    ∀ (l : List Char) x r, l.dropWhile p = x :: r → p x = false := by
  intro l
  induction l with
  | nil => intro x r h; cases h
  | cons a t ih =>
    intro x r h
    by_cases ha : p a = true
    · rw [List.dropWhile_cons_of_pos ha] at h
      exact ih x r h
    · rw [List.dropWhile_cons_of_neg ha] at h
      cases h
      exact Bool.eq_false_iff.mpr ha

/-- A match attempt anchored at a non-brace character fails. -/
theorem matchAt_cons_ne (c : Char) (l : List Char) (hc : c ≠ obr) :
    matchAt (c :: l) = none := by
  simp [matchAt, hc]

/-- The regex search skips a prefix containing no opening brace. -/
theorem reSearch_append_of_no_obr (pre l : List Char) (h : obr ∉ pre) :
    reSearch (pre ++ l) = reSearch l := by
  induction pre with
  | nil => rfl
  | cons c t ih =>
    have hc : c ≠ obr := fun he => h (he ▸ List.mem_cons_self c t)
    simp [reSearch, matchAt_cons_ne c _ hc,
      ih (fun hm => h (List.mem_cons_of_mem _ hm))]

/-- The match attempt at the span start returns exactly the span, provided
the explanation is made of plain characters and the prose after the span
has no closing brace before its first opening brace. -/
theorem matchAt_ansSpan (e post : List Char) (he : ∀ c ∈ e, plainChar c)
    (hpost : cbr ∉ post.takeWhile (fun c => c ≠ obr)) :
    matchAt (ansSpan e ++ post) = some (ansSpan e) := by
  have hshape : ansSpan e ++ post
      = obr :: ((ansSpanPre ++ e ++ ['"']) ++ (cbr :: post)) := by
    simp [ansSpan, List.append_assoc]
  have hA : ∀ c ∈ ansSpanPre, decide (c ≠ obr) = true := by decide
  have hQ : ∀ c ∈ (['"'] : List Char), decide (c ≠ obr) = true := by decide
  have hint : ∀ c ∈ ansSpanPre ++ e ++ ['"'],
      (fun c => decide (c ≠ obr)) c = true := by
    intro c hc
    rcases List.mem_append.mp hc with hc1 | hc1
    · rcases List.mem_append.mp hc1 with hc2 | hc2
      · exact hA c hc2
      · simpa using (he c hc2).1
    · exact hQ c hc1
  have hrun : nonBraceRun ((ansSpanPre ++ e ++ ['"']) ++ (cbr :: post))
      = (ansSpanPre ++ e ++ ['"'])
        ++ (cbr :: post.takeWhile (fun c => c ≠ obr)) := by
    rw [nonBraceRun, takeWhile_append_all _ _ _ hint,
      List.takeWhile_cons_of_pos (by decide)]
  have hppr : ∀ c ∈ (post.takeWhile (fun c => c ≠ obr)).reverse,
      (fun c => decide (c ≠ cbr)) c = true := by
    intro c hc
    rw [List.mem_reverse] at hc
    simp only [decide_eq_true_eq]
    exact fun he2 => hpost (he2 ▸ hc)
  have hrev : ((ansSpanPre ++ e ++ ['"']) ++ (cbr :: post.takeWhile
        (fun c => c ≠ obr))).reverse.dropWhile (fun c => c ≠ cbr)
      = cbr :: (ansSpanPre ++ e ++ ['"']).reverse := by
    rw [List.reverse_append, List.reverse_cons,
      List.append_assoc, dropWhile_append_all _ _ _ hppr]
    simp
  rw [hshape]
  have hlen : 2 ≤ (cbr :: (ansSpanPre ++ e ++ ['"']).reverse).length := by
    simp [ansSpanPre]
  simp only [matchAt, if_pos rfl, greedyTail, hrun, hrev, if_pos hlen]
  simp [ansSpan, List.append_assoc]

/-- The regex search on prose ++ span ++ prose returns the span. -/
theorem reSearch_with_span (pre e post : List Char) (hpre : obr ∉ pre)
    (he : ∀ c ∈ e, plainChar c)
    (hpost : cbr ∉ post.takeWhile (fun c => c ≠ obr)) :
    reSearch (pre ++ (ansSpan e ++ post)) = some (ansSpan e) := by
  rw [reSearch_append_of_no_obr pre _ hpre]
  have hm : matchAt (obr :: ((ansSpanPre ++ e ++ ['"', cbr]) ++ post))
      = some (ansSpan e) := matchAt_ansSpan e post he hpost
  rw [show (ansSpan e ++ post : List Char)
      = obr :: ((ansSpanPre ++ e ++ ['"', cbr]) ++ post) from rfl]
  calc reSearch (obr :: ((ansSpanPre ++ e ++ ['"', cbr]) ++ post))
      = (match matchAt (obr :: ((ansSpanPre ++ e ++ ['"', cbr]) ++ post)) with
        | some m => some m
        | none => reSearch ((ansSpanPre ++ e ++ ['"', cbr]) ++ post)) := rfl
    _ = some (ansSpan e) := by rw [hm]

/-- A string body of plain characters parses up to its closing quote. -/
theorem psb_clean (e r : List Char) (he : ∀ c ∈ e, plainChar c) :
    parseStringBody (e ++ '"' :: r) = some (e, r) := by
  induction e with
  | nil =>
    rw [show (([] : List Char) ++ '"' :: r) = '"' :: r from rfl,
      parseStringBody.eq_def]
    simp
  | cons c t ih =>
    obtain ⟨h1, h2, h3, h4⟩ := he c (List.mem_cons_self c t)
    rw [show ((c :: t) ++ '"' :: r : List Char) = c :: (t ++ '"' :: r) from rfl,
      parseStringBody.eq_def]
    simp [h2, h3, Nat.not_lt.mpr h4,
      ih (fun x hx => he x (List.mem_cons_of_mem _ hx))]

/-- A `"key": "value"` member with plain key and value parses to the
string-valued member. -/
theorem parseMember_str (key v r : List Char)
    (hkey : ∀ c ∈ key, plainChar c) (hv : ∀ c ∈ v, plainChar c) :
    parseMember ('"' :: (key ++ '"' :: ':' :: ' ' :: '"' :: (v ++ '"' :: r)))
      = some ((key, Json.str v), r) := by
  simp +decide [parseMember, parseValue, skipWs, List.dropWhile_cons,
    psb_clean key _ hkey, psb_clean v r hv]

/-- parseMember skips a leading space. -/
theorem parseMember_ws (l : List Char) : parseMember (' ' :: l) = parseMember l := by
  simp +decide [parseMember, skipWs, List.dropWhile_cons]

/-- The member list of the answer span parses into its two members for any
fuel of at least two. -/
theorem parseObj_ansSpan (e : List Char) (he : ∀ c ∈ e, plainChar c) (k : Nat) :
    parseObj (k + 2) (ansSpanPre ++ e ++ ['"', cbr])
      = some ([(chars "Answer", Json.str (chars "yes")),
          (chars "Explanation", Json.str e)], []) := by
  have hm1 : parseMember (ansSpanPre ++ e ++ ['"', cbr])
      = some ((chars "Answer", Json.str (chars "yes")),
          ',' :: ' ' :: '"' :: (chars "Explanation"
            ++ '"' :: ':' :: ' ' :: '"' :: (e ++ '"' :: [cbr]))) := by
    rw [show (ansSpanPre ++ e ++ ['"', cbr] : List Char)
        = '"' :: (chars "Answer" ++ '"' :: ':' :: ' ' :: '"'
            :: (chars "yes" ++ '"' :: (',' :: ' ' :: '"' :: (chars "Explanation"
              ++ '"' :: ':' :: ' ' :: '"' :: (e ++ '"' :: [cbr]))))) from rfl]
    exact parseMember_str (chars "Answer") (chars "yes") _ (by decide) (by decide)
  have hm2 : parseMember (' ' :: '"' :: (chars "Explanation"
        ++ '"' :: ':' :: ' ' :: '"' :: (e ++ '"' :: [cbr])))
      = some ((chars "Explanation", Json.str e), [cbr]) :=
    (parseMember_ws _).trans (parseMember_str (chars "Explanation") e [cbr]
      (by decide) he)
  have ht2 : parseMembersTail (k + 1) [cbr] = some ([], []) := by
    simp +decide [parseMembersTail, skipWs, List.dropWhile_cons]
  have ht1 : parseMembersTail (k + 2) (',' :: ' ' :: '"' :: (chars "Explanation"
        ++ '"' :: ':' :: ' ' :: '"' :: (e ++ '"' :: [cbr])))
      = some ([(chars "Explanation", Json.str e)], []) := by
    simp +decide [parseMembersTail, skipWs, List.dropWhile_cons, hm2, ht2]
  calc parseObj (k + 2) (ansSpanPre ++ e ++ ['"', cbr])
      = (match parseMember (ansSpanPre ++ e ++ ['"', cbr]) with
         | none => none
         | some (m, r) =>
           match parseMembersTail (k + 2) r with
           | none => none
           | some (ms, r2) => some (m :: ms, r2)) := rfl
    _ = some ([(chars "Answer", Json.str (chars "yes")),
          (chars "Explanation", Json.str e)], []) := by
        simp only [hm1, ht1]

/-- The model of json.loads decodes the answer span into the expected
two-field object. -/
theorem jsonLoads_ansSpan (e : List Char) (he : ∀ c ∈ e, plainChar c) :
    jsonLoads (ansSpan e)
      = some (.obj [(chars "Answer", Json.str (chars "yes")),
          (chars "Explanation", Json.str e)]) := by
  have hfuel : (ansSpan e).length + 1 = (e.length + 35) + 2 := by
    simp [ansSpan, ansSpanPre]
  have hobj := parseObj_ansSpan e he (e.length + 35)
  calc jsonLoads (ansSpan e)
      = (match parseObj ((ansSpan e).length + 1)
            (ansSpanPre ++ e ++ ['"', cbr]) with
         | none => none
         | some (fields, r) =>
           if skipWs r = [] then some (Json.obj fields) else none) := rfl
    _ = some (.obj [(chars "Answer", Json.str (chars "yes")),
          (chars "Explanation", Json.str e)]) := by
        rw [hfuel]
        simp only [hobj]
        simp [skipWs]

/-- Removing newlines leaves the answer span unchanged. -/
theorem spanFilter (e : List Char) (he : ∀ c ∈ e, plainChar c) :
    (ansSpan e).filter (fun c => c ≠ '\n') = ansSpan e := by
  rw [List.filter_eq_self]
  intro a ha
  simp only [decide_eq_true_eq]
  have hP : ∀ c ∈ ansSpanPre, c ≠ '\n' := by decide
  have hT : ∀ c ∈ (['"', cbr] : List Char), c ≠ '\n' := by decide
  rcases List.mem_cons.mp ha with h1 | h1
  · subst h1
    decide
  · rcases List.mem_append.mp h1 with h2 | h2
    · rcases List.mem_append.mp h2 with h3 | h3
      · exact hP a h3
      · intro hEq
        have h4 := (he a h3).2.2.2
        rw [hEq] at h4
        exact absurd h4 (by decide)
    · exact hT a h2

/-- takeWhile up to the first opening brace commutes with removing
newlines. -/
theorem takeWhile_filter_newline (post : List Char) :
    (post.filter (fun c => c ≠ '\n')).takeWhile (fun c => c ≠ obr)
      = (post.takeWhile (fun c => c ≠ obr)).filter (fun c => c ≠ '\n') := by
  induction post with
  | nil => rfl
  | cons c t ih =>
    by_cases hc : c = '\n'
    · subst hc
      simp +decide [List.filter_cons, List.takeWhile_cons]
      simpa using ih
    · by_cases hobr : c = obr
      · subst hobr
        simp +decide [List.filter_cons, List.takeWhile_cons]
      · simp [List.filter_cons, List.takeWhile_cons, hc, hobr]
        simpa using ih

/-- A greedy tail decomposes its run at the last closing brace. -/
theorem greedyTail_decomp (run g : List Char) (hg : greedyTail run = some g) :
    ∃ g1 t, g = g1 ++ [cbr] ∧ run = g1 ++ cbr :: t := by
  simp only [greedyTail] at hg
  rcases hr : run.reverse.dropWhile (fun c => c ≠ cbr) with _ | ⟨x, r2⟩
  · rw [hr] at hg
    simp at hg
  · rw [hr] at hg
    by_cases hlen : 2 ≤ (x :: r2).length
    · rw [if_pos hlen] at hg
      injection hg with hg2
      have hx : x = cbr := by
        have := dropWhile_head_false _ _ _ _ hr
        simpa using this
      obtain ⟨s, hsplit⟩ : ∃ s, run.reverse = s ++ x :: r2 :=
        ⟨run.reverse.takeWhile (fun c => c ≠ cbr), by
          rw [← hr]
          exact (List.takeWhile_append_dropWhile _ _).symm⟩
      refine ⟨r2.reverse, s.reverse, ?_, ?_⟩
      · rw [← hg2, hx]
        simp
      · apply List.reverse_injective
        rw [hsplit, hx]
        simp [List.append_assoc]
    · rw [if_neg hlen] at hg
      cases hg

/-- A successful match attempt exhibits a balanced, non-nested span at the
head of the text. -/
theorem matchAt_some_decomp (l m : List Char) (h : matchAt l = some m) :
    ∃ mid b, l = obr :: (mid ++ cbr :: b) ∧ obr ∉ mid := by
  cases l with
  | nil => cases h
  | cons c rest =>
    by_cases hc : c = obr
    · subst hc
      simp only [matchAt, if_pos rfl] at h
      rcases hg : greedyTail (nonBraceRun rest) with _ | g
      · rw [hg] at h
        cases h
      · obtain ⟨g1, t, hgeq, hrun⟩ := greedyTail_decomp _ _ hg
        obtain ⟨d, hd⟩ : ∃ d, rest = (g1 ++ cbr :: t) ++ d :=
          ⟨rest.dropWhile (fun c => c ≠ obr), by
            rw [← hrun]
            exact (List.takeWhile_append_dropWhile _ _).symm⟩
        refine ⟨g1, t ++ d, ?_, ?_⟩
        · rw [hd]
          simp
        · intro hmem
          have hrunmem : obr ∈ nonBraceRun rest := by
            rw [hrun]
            exact List.mem_append_left _ hmem
          have := List.mem_takeWhile_imp hrunmem
          simp at this
    · rw [matchAt_cons_ne c rest hc] at h
      cases h

/-- A successful regex search implies the text has a balanced, non-nested
brace span. -/
theorem reSearch_some_hasSpan :
    ∀ (l m : List Char), reSearch l = some m → hasBraceSpan l := by
  intro l
  induction l with
  | nil => intro m h; cases h
  | cons c rest ih =>
    intro m h
    rcases hma : matchAt (c :: rest) with _ | m2
    · have h2 : reSearch rest = some m := by
        rw [reSearch, hma] at h
        exact h
      obtain ⟨a, mid, b, heq, hmid⟩ := ih m h2
      exact ⟨c :: a, mid, b, by rw [heq]; rfl, hmid⟩
    · obtain ⟨mid, b, heq, hmid⟩ := matchAt_some_decomp _ _ hma
      exact ⟨[], mid, b, heq, hmid⟩

/-- A closing brace found after removing newlines was already present,
with an obr-free prefix. -/
theorem filter_split_cbr :
    ∀ (t mid post : List Char),
      t.filter (fun c => c ≠ '\n') = mid ++ cbr :: post → obr ∉ mid →
      ∃ mid2 post2, t = mid2 ++ cbr :: post2 ∧ obr ∉ mid2 := by
  intro t
  induction t with
  | nil =>
    intro mid post h hm
    rcases mid with _ | ⟨x, mid⟩ <;> simp at h
  | cons a t ih =>
    intro mid post h hm
    by_cases ha : a = '\n'
    · subst ha
      rw [show (('\n' :: t).filter (fun c => c ≠ '\n'))
          = t.filter (fun c => c ≠ '\n') by simp] at h
      obtain ⟨mid2, post2, ht, hm2⟩ := ih mid post h hm
      refine ⟨'\n' :: mid2, post2, by rw [ht]; rfl, ?_⟩
      intro hmem
      rcases List.mem_cons.mp hmem with h1 | h1
      · exact absurd h1.symm (by decide)
      · exact hm2 h1
    · rw [show ((a :: t).filter (fun c => c ≠ '\n'))
          = a :: t.filter (fun c => c ≠ '\n') by simp [ha]] at h
      cases mid with
      | nil =>
        simp only [List.nil_append] at h
        injection h with h1 h2
        exact ⟨[], t, by rw [h1]; rfl, by simp⟩
      | cons m0 mid2 =>
        injection h with h1 h2
        obtain ⟨mid3, post3, ht, hm3⟩ := ih mid2 post h2
          (fun hmem => hm (List.mem_cons_of_mem _ hmem))
        refine ⟨a :: mid3, post3, by rw [ht]; rfl, ?_⟩
        intro hmem
        rcases List.mem_cons.mp hmem with hx | hx
        · rw [h1] at hx
          exact hm (hx ▸ List.mem_cons_self _ _)
        · exact hm3 hx

/-- A brace span in the newline-stripped text exists in the raw text. -/
theorem hasBraceSpan_of_filter :
    ∀ l, hasBraceSpan (l.filter (fun c => c ≠ '\n')) → hasBraceSpan l := by
  intro l
  induction l with
  | nil => exact fun h => h
  | cons c t ih =>
    intro h
    by_cases hc : c = '\n'
    · subst hc
      have h2 : hasBraceSpan (t.filter (fun c => c ≠ '\n')) := by
        rw [show (('\n' :: t).filter (fun c => c ≠ '\n'))
            = t.filter (fun c => c ≠ '\n') by simp] at h
        exact h
      obtain ⟨a, mid, b, heq, hm⟩ := ih h2
      exact ⟨'\n' :: a, mid, b, by rw [heq]; rfl, hm⟩
    · rw [show ((c :: t).filter (fun c => c ≠ '\n'))
          = c :: t.filter (fun c => c ≠ '\n') by simp [hc]] at h
      obtain ⟨a, mid, b, heq, hm⟩ := h
      cases a with
      | nil =>
        simp only [List.nil_append] at heq
        injection heq with h1 h2
        obtain ⟨mid2, post2, ht, hm2⟩ := filter_split_cbr t mid b h2 hm
        exact ⟨[], mid2, post2, by rw [h1, ht]; rfl, hm2⟩
      | cons a0 a2 =>
        injection heq with h1 h2
        obtain ⟨a3, mid3, b3, ht, hm3⟩ := ih ⟨a2, mid, b, h2, hm⟩
        exact ⟨c :: a3, mid3, b3, by rw [ht]; rfl, hm3⟩

/-- C1 counterexample: the text consisting of the exact substring
`{"Answer": "yes", "Explanation": "ok"}` followed by the prose `}` makes
answer_parser raise InvalidAnswerError instead of returning "yes": the
greedy regex `{[^{]+}` extends the span to the last closing brace of the
brace-free run, so the extracted span carries the trailing prose and fails
to parse as JSON.  The second conjunct records that this text is the
canonical span plus surrounding prose. -/
theorem c1_counterexample :
    answerParser (chars "\x7b\"Answer\": \"yes\", \"Explanation\": \"ok\"\x7d\x7d")
        VALID_FILTERING_ANSWERS = .error .invalidAnswer
  ∧ chars "\x7b\"Answer\": \"yes\", \"Explanation\": \"ok\"\x7d\x7d"
      = ansSpan (chars "ok") ++ [cbr] := by
  constructor <;> decide

/-- C1 amended: the surrounding prose cannot be fully arbitrary.  For any
text pre ++ `{"Answer": "yes", "Explanation": "e"}` ++ post in which the
prose before the span contains no `{`, the explanation consists of plain
characters (no braces, quotes, backslashes or control characters), and the
prose after the span contains no `}` before its first `{`, the parser
succeeds and returns the token "yes" (with an empty explanation).  And for
every text containing no balanced, non-nested `{...}` span, answer_parser
raises InvalidAnswerError, for every accepted-token set. -/
theorem c1_amended :
    (∀ pre e post : List Char,
      obr ∉ pre →
      (∀ c ∈ e, plainChar c) →
      cbr ∉ post.takeWhile (fun c => c ≠ obr) →
      answerParser (pre ++ ansSpan e ++ post) VALID_FILTERING_ANSWERS
        = .ok (chars "yes", []))
  ∧ (∀ (text : List Char) (V : List (List Char)),
      ¬ hasBraceSpan text →
      answerParser text V = .error .invalidAnswer) := by
  constructor
  · intro pre e post hpre he hpost
    have hq : (pre ++ ansSpan e ++ post).filter (fun c => c ≠ '\n')
        = pre.filter (fun c => c ≠ '\n')
          ++ (ansSpan e ++ post.filter (fun c => c ≠ '\n')) := by
      rw [List.filter_append, List.filter_append, spanFilter e he,
        List.append_assoc]
    have hpre2 : obr ∉ pre.filter (fun c => c ≠ '\n') :=
      fun hm => hpre (List.mem_of_mem_filter hm)
    have hpost2 : cbr ∉ (post.filter (fun c => c ≠ '\n')).takeWhile
        (fun c => c ≠ obr) := by
      rw [takeWhile_filter_newline]
      exact fun hm => hpost (List.mem_of_mem_filter hm)
    have hsearch := reSearch_with_span (pre.filter (fun c => c ≠ '\n')) e
      (post.filter (fun c => c ≠ '\n')) hpre2 he hpost2
    have hjson := jsonLoads_ansSpan e he
    simp only [answerParser, hq, hsearch, hjson]
    simp +decide [objGet, pyStr, pyLower, pyStrip, VALID_FILTERING_ANSWERS]
  · intro text V hno
    rcases hrs : reSearch (text.filter (fun c => c ≠ '\n')) with _ | m
    · simp only [answerParser, hrs]
    · exact absurd (hasBraceSpan_of_filter text (reSearch_some_hasSpan _ m hrs))
        hno

/-- Witness for C1 amended: concrete prose around the span, and a concrete
text with no brace span. -/
theorem c1_witness :
    (answerParser (chars "judge says: "
        ++ ansSpan (chars "ok") ++ chars " end \x7b note\x7d")
        VALID_FILTERING_ANSWERS
      = .ok (chars "yes", []))
  ∧ answerParser (chars "no braces at all") VALID_SORTING_ANSWERS
      = .error .invalidAnswer := by
  constructor
  · exact c1_amended.1 (chars "judge says: ") (chars "ok")
      (chars " end \x7b note\x7d") (by decide) (by decide) (by decide)
  · refine c1_amended.2 (chars "no braces at all") VALID_SORTING_ANSWERS ?_
    rintro ⟨a, mid, b, heq, hm⟩
    have hobr : obr ∈ chars "no braces at all" := by
      rw [heq]
      exact List.mem_append_right _ (List.mem_cons_self _ _)
    exact absurd hobr (by decide)

end ALI

